import Mathlib

/-!
Verification of the latex-preprocessor pipeline (src/src/main.rs).

Strings are embedded as `List Char`; Rust byte indices in the source only ever
cut at ASCII marker characters, so character-level cutting is faithful.
Fatal aborts in the source are embedded as `Option` results
(`none` = the process panicked).
-/

/-- Character-list image of a Lean string literal; used to write the
target-markup fragments the Rust source builds with `format!`. -/
def strLit (s : String) : List Char := s.data

/-- Models Rust `str::trim` (drop leading and trailing whitespace). The source
only ever meets ASCII whitespace, which `Char.isWhitespace` covers. -/
def trim (l : List Char) : List Char :=
  ((l.dropWhile Char.isWhitespace).reverse.dropWhile Char.isWhitespace).reverse

/-- Split a character list at every newline character; the list of segments is
always nonempty, a trailing newline yielding a final empty segment. -/
def splitOnNewline : List Char → List (List Char)
  | [] => [[]]
  | c :: rest =>
      if c = '\n' then [] :: splitOnNewline rest
      else
        match splitOnNewline rest with
        | [] => [[c]]
        | seg :: segs => (c :: seg) :: segs

/-- Drop one trailing carriage return.  Rust `str::lines` does this exactly to
the lines it cut at a newline (a CRLF ending); a carriage return not followed
by a newline stays in the produced line. -/
def stripCR (l : List Char) : List Char :=
  if l.getLast? = some '\r' then l.dropLast else l

/-- Turn the newline-split segments into the produced lines, as Rust
`str::lines` (built on `split_inclusive` of the newline) does: every segment
but the last was terminated by a newline and loses one preceding carriage
return; the final unterminated segment is kept verbatim, and does not exist
when the input ended with a newline (the empty final segment). -/
def rustLinesAux : List (List Char) → List (List Char)
  | [] => []
  | [last] => if last = [] then [] else [last]
  | seg :: seg2 :: rest => stripCR seg :: rustLinesAux (seg2 :: rest)

/-- Models Rust `str::lines`: newline-separated segments with CRLF handling on
the terminated lines only, no final empty segment for a trailing newline,
empty input yielding no lines. -/
def rustLines (s : List Char) : List (List Char) :=
  if s = [] then [] else rustLinesAux (splitOnNewline s)

/-- Split a line at the first occurrence of the two-character sentinel `~~`:
`some (before, after)` with the two sentinel characters removed, `none` when
the sentinel does not occur.  Models Rust `find("~~")` together with
`split_at` and `[2..]` (main.rs lines 159-161); `isSome` of this models
`contains("~~")`. -/
def splitAtSentinel : List Char → Option (List Char × List Char)
  | [] => none
  | c :: rest =>
      if c = '~' ∧ rest.head? = some '~' then some ([], rest.drop 1)
      else (splitAtSentinel rest).map (fun ab => (c :: ab.1, ab.2))

/-- Models Rust `str::contains("~~")`. -/
def containsSentinel (l : List Char) : Bool :=
  (splitAtSentinel l).isSome

/-- main.rs lines 57-61: a classified line. -/
inductive Line
  | Normal (s : List Char)
  | Header (s : List Char) (n : Nat)
  | Align (s : List Char)
  deriving DecidableEq

/-- main.rs lines 85-90: the grouping key. -/
inductive LineType
  | Normal
  | Header (n : Nat)
  | Align
  deriving DecidableEq

/-- main.rs lines 68-74 (`Line::get_type`). -/
def Line.getType : Line → LineType
  | .Normal _ => .Normal
  | .Header _ x => .Header x
  | .Align _ => .Align

/-- main.rs lines 76-82 (`Line::get_content`). -/
def Line.getContent : Line → List Char
  | .Normal s => s
  | .Header s _ => s
  | .Align s => s

/-- The line-classification step of `PreFile::from_string`
(main.rs lines 196-217), applied to one raw line. -/
def classify (line : List Char) : Line :=
  if line.head? = some '>' then .Align (line.drop 1)
  else if line.head? = some '#' then
    let counter := (line.takeWhile (fun ch => ch = '#')).length
    .Header (line.drop counter) counter
  else .Normal line

/-- main.rs lines 92-95. -/
structure Block where
  block_type : LineType
  content : List (List Char)
  deriving DecidableEq

/-- main.rs lines 98-111 (`Block::from_block_buffer`); the panic on an empty
buffer is `none`. -/
def Block.from_block_buffer (buffer : List Line) : Option Block :=
  match buffer with
  | [] => none
  | l :: _ => some ⟨l.getType, buffer.map Line.getContent⟩

/-- main.rs lines 180-187 (`fold_strings`). -/
def fold_strings (string : List (List Char)) (suffix pre : List Char) : List Char :=
  string.foldl (fun acc x => acc ++ pre ++ x ++ suffix) []

/-- One iteration body of the `Align` rendering loop
(main.rs lines 157-172): the fragment pushed for one content line. -/
def alignLine (commented : Bool) (elem : List Char) : List Char :=
  match splitAtSentinel elem with
  | some (p1, p2) =>
      strLit "&" ++ trim p1 ++ strLit " &&\\text\x7b " ++ p2 ++ strLit " \x7d"
        ++ strLit "\\\\\n"
  | none =>
      if commented then
        strLit "&" ++ elem ++ strLit " &&\\text\x7b\\quad\x7d" ++ strLit "\\\\\n"
      else strLit "&" ++ elem ++ strLit "\\\\\n"

/-- main.rs lines 113-177 (`Block::transpile`); the panic on an unsupported
header level is `none`. -/
def Block.transpile (b : Block) : Option (List Char) :=
  match b.block_type with
  | LineType.Normal =>
      let content := b.content.map
        (fun x => if trim x = strLit "~~" then strLit "\\quad\\newline" else x)
      some (trim (fold_strings content (strLit "\n") (strLit "")) ++ strLit "\n")
  | LineType.Header n =>
      match n with
      | 1 => some (strLit "\\section\x7b "
          ++ trim (fold_strings b.content (strLit " ") (strLit "")) ++ strLit " \x7d\n")
      | 2 => some (strLit "\\subsection\x7b "
          ++ trim (fold_strings b.content (strLit " ") (strLit "")) ++ strLit " \x7d\n")
      | 3 => some (strLit "\\subsubsection\x7b "
          ++ trim (fold_strings b.content (strLit " ") (strLit "")) ++ strLit " \x7d\n")
      | 4 => some (strLit "\\end\x7bflushleft\x7d\n" ++ strLit "\\center\n"
          ++ strLit "\\large"
          ++ strLit "\\textbf\x7b "
          ++ trim (fold_strings b.content (strLit " ") (strLit "")) ++ strLit " \x7d\n"
          ++ strLit "\\normalsize\n" ++ strLit "\\endcenter\n"
          ++ strLit "\\begin\x7bflushleft\x7d\n")
      | 5 => some (strLit "\\textbf\x7b "
          ++ trim (fold_strings b.content (strLit " ") (strLit "")) ++ strLit " \x7d\\\\\n")
      | _ => none
  | LineType.Align =>
      let commented := b.content.any containsSentinel
      some (strLit "\\begin\x7balign*\x7d\n"
        ++ (b.content.map (alignLine commented)).flatten
        ++ strLit "\\end\x7balign*\x7d\n")

/-- The segmentation loop of `PreFile::from_string` (main.rs lines 218-235),
with the accumulated blocks kept as raw line buffers; `Block.from_block_buffer`
is applied afterwards in `PreFile.from_string`, which is equivalent because the
only buffer that can be empty is the final one.  Returns the closed buffers and
the final open buffer. -/
def segmentGo (acc : List (List Line)) (buf : List Line) (cur : Option LineType) :
    List Line → List (List Line) × List Line
  | [] => (acc, buf)
  | l :: rest =>
      if some l.getType = cur then segmentGo acc (buf ++ [l]) cur rest
      else
        match cur with
        | none => segmentGo acc (buf ++ [l]) (some l.getType) rest
        | some _ => segmentGo (acc ++ [buf]) [l] (some l.getType) rest

/-- main.rs lines 189-191. -/
structure PreFile where
  blocks : List Block
  deriving DecidableEq

/-- main.rs lines 194-240 (`PreFile::from_string`): classify every line, run
the segmentation loop, and close every buffer (the final push at line 236
included) into blocks; `none` when a buffer is empty (the panic). -/
def PreFile.from_string (s : List Char) : Option PreFile :=
  let lines := (rustLines s).map classify
  let res := segmentGo [] [] none lines
  match (res.1 ++ [res.2]).mapM Block.from_block_buffer with
  | some blocks => some ⟨blocks⟩
  | none => none

/-- main.rs lines 7-17 (`DEFAULT_HEADER`). -/
def DEFAULT_HEADER : List Char :=
  strLit "\\documentclass[12pt, a4paper, twoside, titlepage]\x7barticle\x7d\n\\usepackage\x7bamsmath\x7d\n\\usepackage\x7bamsfonts\x7d\n\\usepackage\x7bamssymb\x7d\n\\usepackage\x7ba4\x7d\n\\usepackage[ngerman]\x7bbabel\x7d\n\\usepackage[utf8x]\x7binputenc\x7d\n\\usepackage\x7bragged2e\x7d\n\\begin\x7bdocument\x7d\n\\begin\x7bflushleft\x7d\n"

/-- main.rs lines 19-21 (`DEFAULT_FOOTER`). -/
def DEFAULT_FOOTER : List Char :=
  strLit "\\end\x7bflushleft\x7d\n\\end\x7bdocument\x7d\n"

/-- main.rs lines 242-250 (`PreFile::transpile`): header, every block's
fragment in order, footer; `none` when some block's rendering panics. -/
def PreFile.transpile (f : PreFile) : Option (List Char) :=
  match f.blocks.mapM Block.transpile with
  | some frags => some (DEFAULT_HEADER ++ frags.flatten ++ DEFAULT_FOOTER)
  | none => none

/-- The whole per-document pipeline as `main` runs it (main.rs lines 33-34):
`PreFile::from_string` followed by `PreFile::transpile`. -/
def run (s : List Char) : Option (List Char) :=
  match PreFile.from_string s with
  | some doc => doc.transpile
  | none => none

/-! ### Specification-side definitions used to state the claims -/

/-- Joining a list of strings with a separator between consecutive elements;
the specification-side description of what `fold_strings` followed by `trim`
produces. -/
def joinSep (sep : List Char) : List (List Char) → List Char
  | [] => []
  | [x] => x
  | x :: y :: rest => x ++ sep ++ joinSep sep (y :: rest)

/-- The space-joined, trimmed content of a block: the text every header
wrapper surrounds. -/
def joinedContent (b : Block) : List Char := trim (joinSep (strLit " ") b.content)

/-- The row terminator of the alignment environment. -/
def rowTerm : List Char := strLit "\\\\\n"

/-- A one-column alignment row. -/
def oneColRow (formula : List Char) : List Char := strLit "&" ++ formula ++ rowTerm

/-- A two-column alignment row: formula column, then the second-column
separator, then the comment column. -/
def twoColRow (formula comment : List Char) : List Char :=
  strLit "&" ++ formula ++ strLit " &&" ++ comment ++ rowTerm

/-- The placeholder inline-quad spacer carried in the second column by rows
whose line lacks the sentinel. -/
def quadSpacer : List Char := strLit "\\text\x7b\\quad\x7d"

/-- The kind of a buffer of lines: the kind of its first line, when any. -/
def bufType (buf : List Line) : Option LineType := buf.head?.map Line.getType


/-! ### Helper lemmas about the string utilities -/

theorem drop_length_takeWhile (p : Char → Bool) :
    ∀ l : List Char, l.drop (l.takeWhile p).length = l.dropWhile p
  | [] => rfl
  | c :: rest => by
      by_cases h : p c
      · simp [List.takeWhile_cons, List.dropWhile_cons, h, drop_length_takeWhile p rest]
      · simp [List.takeWhile_cons, List.dropWhile_cons, h]

theorem trim_append_ws (l : List Char) (c : Char) (hc : c.isWhitespace = true) :
    trim (l ++ [c]) = trim l := by
  unfold trim
  rw [List.dropWhile_append]
  by_cases h : (l.dropWhile Char.isWhitespace).isEmpty = true
  · rw [if_pos h]
    rw [List.isEmpty_iff] at h
    rw [h]
    simp [List.dropWhile_cons, hc]
  · rw [if_neg h]
    rw [List.reverse_append]
    simp [List.dropWhile_cons, hc]

theorem fold_strings_eq_flatten (sep pre : List Char) (l : List (List Char)) :
    fold_strings l sep pre = (l.map (fun x => pre ++ x ++ sep)).flatten := by
  unfold fold_strings
  suffices h : ∀ a, l.foldl (fun acc x => acc ++ pre ++ x ++ sep) a
      = a ++ (l.map (fun x => pre ++ x ++ sep)).flatten by
    simpa using h []
  induction l with
  | nil => simp
  | cons x rest ih =>
      intro a
      rw [List.foldl_cons, ih]
      simp [List.append_assoc]

theorem flatten_map_append_sep (sep : List Char) :
    ∀ l : List (List Char), l ≠ [] →
      (l.map (fun x => x ++ sep)).flatten = joinSep sep l ++ sep
  | [], h => absurd rfl h
  | [x], _ => by simp [joinSep]
  | x :: y :: rest, _ => by
      have ih := flatten_map_append_sep sep (y :: rest) (by simp)
      simp only [List.map_cons, List.flatten_cons] at ih ⊢
      rw [ih, joinSep]
      simp [List.append_assoc]

theorem trim_fold_strings (c : Char) (hc : c.isWhitespace = true)
    (l : List (List Char)) :
    trim (fold_strings l [c] (strLit "")) = trim (joinSep [c] l) := by
  cases l with
  | nil => rfl
  | cons x rest =>
      rw [fold_strings_eq_flatten]
      have hnil : strLit "" = [] := rfl
      rw [hnil]
      have h1 : ((x :: rest).map (fun t => [] ++ t ++ [c])).flatten
          = joinSep [c] (x :: rest) ++ [c] := by
        have h2 := flatten_map_append_sep [c] (x :: rest) (by simp)
        simpa using h2
      rw [h1, trim_append_ws _ c hc]

/-! ### Helper lemmas about the sentinel splitter -/

theorem splitAtSentinel_eq : ∀ (l p1 p2 : List Char),
    splitAtSentinel l = some (p1, p2) → l = p1 ++ '~' :: '~' :: p2
  | [], p1, p2, h => by simp [splitAtSentinel] at h
  | c :: rest, p1, p2, h => by
      rw [splitAtSentinel] at h
      by_cases hc : c = '~' ∧ rest.head? = some '~'
      · rw [if_pos hc] at h
        simp only [Option.some.injEq, Prod.mk.injEq] at h
        obtain ⟨hp1, hp2⟩ := h
        obtain ⟨h1, h2⟩ := hc
        subst hp1
        subst hp2
        subst h1
        cases rest with
        | nil => simp at h2
        | cons r rs =>
            simp only [List.head?_cons, Option.some.injEq] at h2
            subst h2
            simp
      · rw [if_neg hc] at h
        rw [Option.map_eq_some'] at h
        obtain ⟨⟨a, b⟩, hs, hf⟩ := h
        simp only [Prod.mk.injEq] at hf
        obtain ⟨hp1, hp2⟩ := hf
        have ih := splitAtSentinel_eq rest a b hs
        subst hp1
        subst hp2
        simp [ih]

theorem splitAtSentinel_min : ∀ (l p1 p2 a b : List Char),
    splitAtSentinel l = some (p1, p2) → l = a ++ '~' :: '~' :: b →
    p1.length ≤ a.length
  | [], p1, p2, a, b, h, _ => by simp [splitAtSentinel] at h
  | c :: rest, p1, p2, a, b, h, hl => by
      rw [splitAtSentinel] at h
      by_cases hc : c = '~' ∧ rest.head? = some '~'
      · rw [if_pos hc] at h
        simp only [Option.some.injEq, Prod.mk.injEq] at h
        obtain ⟨hp1, _⟩ := h
        subst hp1
        simp
      · rw [if_neg hc] at h
        rw [Option.map_eq_some'] at h
        obtain ⟨⟨a1, b1⟩, hs, hf⟩ := h
        simp only [Prod.mk.injEq] at hf
        obtain ⟨hp1, _⟩ := hf
        subst hp1
        cases a with
        | nil =>
            exfalso
            simp only [List.nil_append, List.cons.injEq] at hl
            obtain ⟨hl1, hl2⟩ := hl
            exact hc ⟨hl1, by rw [hl2]; rfl⟩
        | cons x a2 =>
            simp only [List.cons_append, List.cons.injEq] at hl
            obtain ⟨_, hl2⟩ := hl
            have ih := splitAtSentinel_min rest a1 b1 a2 b hs hl2
            simp only [List.length_cons]
            omega

theorem splitAtSentinel_isSome_append (a b : List Char) :
    (splitAtSentinel (a ++ '~' :: '~' :: b)).isSome = true := by
  induction a with
  | nil =>
      rw [List.nil_append, splitAtSentinel]
      simp
  | cons x a2 ih =>
      rw [List.cons_append, splitAtSentinel]
      by_cases hc : x = '~' ∧ (a2 ++ '~' :: '~' :: b).head? = some '~'
      · rw [if_pos hc]; simp
      · rw [if_neg hc]
        cases hs : splitAtSentinel (a2 ++ '~' :: '~' :: b) with
        | none => rw [hs] at ih; simp at ih
        | some ab => simp

theorem containsSentinel_iff (l : List Char) :
    containsSentinel l = true ↔ ∃ a b, l = a ++ '~' :: '~' :: b := by
  constructor
  · intro h
    unfold containsSentinel at h
    cases hs : splitAtSentinel l with
    | none => rw [hs] at h; simp at h
    | some ab => exact ⟨ab.1, ab.2, splitAtSentinel_eq l ab.1 ab.2 (by rw [hs])⟩
  · rintro ⟨a, b, rfl⟩
    unfold containsSentinel
    exact splitAtSentinel_isSome_append a b

/-! ### C2 and C7 -/

/-- C2: classification checks, in order: a leading alignment marker yields
`Align` with exactly the first character removed; otherwise a leading header
marker yields `Header` with the maximal run of leading markers counted and
removed; otherwise the line is `Normal`, unchanged.  Classification is a total
function, so every line maps to exactly one `Line` and never fails. -/
theorem classification_rules (l : List Char) :
    (∀ rest, l = '>' :: rest → classify l = Line.Align rest) ∧
    (l.head? ≠ some '>' → l.head? = some '#' →
      ∃ n rest, classify l = Line.Header rest n ∧ 1 ≤ n ∧
        l = List.replicate n '#' ++ rest ∧ rest.head? ≠ some '#') ∧
    (l.head? ≠ some '>' → l.head? ≠ some '#' → classify l = Line.Normal l) := by
  refine ⟨?_, ?_, ?_⟩
  · rintro rest rfl
    simp [classify]
  · intro h1 h2
    have htw : l.takeWhile (fun ch => ch = '#')
        = List.replicate (l.takeWhile (fun ch => ch = '#')).length '#' :=
      List.eq_replicate_of_mem (fun x hx => by
        have hm := List.mem_takeWhile_imp hx
        simpa using hm)
    refine ⟨(l.takeWhile (fun ch => ch = '#')).length,
      l.dropWhile (fun ch => ch = '#'), ?_, ?_, ?_, ?_⟩
    · unfold classify
      rw [if_neg h1, if_pos h2]
      simp [drop_length_takeWhile]
    · cases l with
      | nil => simp at h2
      | cons c rest =>
          simp only [List.head?_cons, Option.some.injEq] at h2
          subst h2
          simp [List.takeWhile_cons]
    · rw [← htw]
      exact (List.takeWhile_append_dropWhile (fun ch => decide (ch = '#')) l).symm
    · intro hbad
      have h3 := List.head?_dropWhile_not (fun ch => decide (ch = '#')) l
      rw [hbad] at h3
      simp at h3
  · intro h1 h2
    unfold classify
    rw [if_neg h1, if_neg h2]

/-- Witness for C2 at concrete lines. -/
theorem classification_rules_witness :
    classify (strLit ">x") = Line.Align (strLit "x") ∧
    (∃ n rest, classify (strLit "##a") = Line.Header rest n ∧ 1 ≤ n ∧
      strLit "##a" = List.replicate n '#' ++ rest ∧ rest.head? ≠ some '#') ∧
    classify (strLit "abc") = Line.Normal (strLit "abc") :=
  ⟨(classification_rules (strLit ">x")).1 (strLit "x") rfl,
   (classification_rules (strLit "##a")).2.1 (by decide) (by decide),
   (classification_rules (strLit "abc")).2.2 (by decide) (by decide)⟩

/-- C7: rendering a Header block is fatal (panics, embedded as `none`) iff its
level is outside the supported range 1..=5; levels 1-5 always render. -/
theorem header_level_fatal_iff (b : Block) (n : Nat)
    (hb : b.block_type = LineType.Header n) :
    (b.transpile = none ↔ (n = 0 ∨ 5 < n)) := by
  unfold Block.transpile
  rw [hb]
  rcases n with _ | _ | _ | _ | _ | _ | k
  all_goals simp

/-- Witness for C7: level 6 is fatal, level 1 is not. -/
theorem header_level_fatal_iff_witness :
    (Block.mk (LineType.Header 6) [strLit "x"]).transpile = none ∧
    ¬ (Block.mk (LineType.Header 1) [strLit "x"]).transpile = none :=
  ⟨(header_level_fatal_iff ⟨LineType.Header 6, [strLit "x"]⟩ 6 rfl).mpr
      (Or.inr (by decide)),
   fun h => by
      have h2 := (header_level_fatal_iff ⟨LineType.Header 1, [strLit "x"]⟩ 1 rfl).mp h
      simp at h2⟩

/-! ### Per-constructor unfolding of Block.transpile -/

theorem transpile_normal (c : List (List Char)) :
    (Block.mk LineType.Normal c).transpile
      = some (trim (fold_strings (c.map
          (fun x => if trim x = strLit "~~" then strLit "\\quad\\newline" else x))
          (strLit "\n") (strLit "")) ++ strLit "\n") := rfl

theorem transpile_header1 (c : List (List Char)) :
    (Block.mk (LineType.Header 1) c).transpile
      = some (strLit "\\section\x7b "
          ++ trim (fold_strings c (strLit " ") (strLit "")) ++ strLit " \x7d\n") := rfl

theorem transpile_header2 (c : List (List Char)) :
    (Block.mk (LineType.Header 2) c).transpile
      = some (strLit "\\subsection\x7b "
          ++ trim (fold_strings c (strLit " ") (strLit "")) ++ strLit " \x7d\n") := rfl

theorem transpile_header3 (c : List (List Char)) :
    (Block.mk (LineType.Header 3) c).transpile
      = some (strLit "\\subsubsection\x7b "
          ++ trim (fold_strings c (strLit " ") (strLit "")) ++ strLit " \x7d\n") := rfl

theorem transpile_header4 (c : List (List Char)) :
    (Block.mk (LineType.Header 4) c).transpile
      = some (strLit "\\end\x7bflushleft\x7d\n" ++ strLit "\\center\n"
          ++ strLit "\\large" ++ strLit "\\textbf\x7b "
          ++ trim (fold_strings c (strLit " ") (strLit "")) ++ strLit " \x7d\n"
          ++ strLit "\\normalsize\n" ++ strLit "\\endcenter\n"
          ++ strLit "\\begin\x7bflushleft\x7d\n") := rfl

theorem transpile_header5 (c : List (List Char)) :
    (Block.mk (LineType.Header 5) c).transpile
      = some (strLit "\\textbf\x7b "
          ++ trim (fold_strings c (strLit " ") (strLit "")) ++ strLit " \x7d\\\\\n") := rfl

theorem transpile_align (c : List (List Char)) :
    (Block.mk LineType.Align c).transpile
      = some (strLit "\\begin\x7balign*\x7d\n"
          ++ (c.map (alignLine (c.any containsSentinel))).flatten
          ++ strLit "\\end\x7balign*\x7d\n") := rfl

theorem trim_fold_space (l : List (List Char)) :
    trim (fold_strings l (strLit " ") (strLit "")) = trim (joinSep (strLit " ") l) :=
  trim_fold_strings ' ' (by decide) l

theorem trim_fold_newline (l : List (List Char)) :
    trim (fold_strings l (strLit "\n") (strLit "")) = trim (joinSep (strLit "\n") l) :=
  trim_fold_strings '\n' (by decide) l

/-! ### C5, C6 -/

/-- C5: Header rendering dispatches on the level.  Levels 1, 2, 3 produce the
section, subsection and subsubsection wrappers around the space-joined trimmed
content; level 5 produces bold inline emphasis followed by a forced line
break; level 4 emits, in order, a close of the left-flush environment, a
centered environment holding the content in large bold face, and a reopening
of the left-flush environment, so that environment is open again on exit. -/
theorem header_level_dispatch (b : Block) (n : Nat)
    (hb : b.block_type = LineType.Header n) :
    (n = 1 → b.transpile
      = some (strLit "\\section\x7b " ++ joinedContent b ++ strLit " \x7d\n")) ∧
    (n = 2 → b.transpile
      = some (strLit "\\subsection\x7b " ++ joinedContent b ++ strLit " \x7d\n")) ∧
    (n = 3 → b.transpile
      = some (strLit "\\subsubsection\x7b " ++ joinedContent b ++ strLit " \x7d\n")) ∧
    (n = 5 → b.transpile
      = some (strLit "\\textbf\x7b " ++ joinedContent b
          ++ strLit " \x7d" ++ strLit "\\\\\n")) ∧
    (n = 4 → b.transpile
      = some (strLit "\\end\x7bflushleft\x7d\n"
          ++ (strLit "\\center\n" ++ strLit "\\large" ++ strLit "\\textbf\x7b "
              ++ joinedContent b ++ strLit " \x7d\n" ++ strLit "\\normalsize\n"
              ++ strLit "\\endcenter\n")
          ++ strLit "\\begin\x7bflushleft\x7d\n") ∧
      (∃ mid, b.transpile = some (strLit "\\end\x7bflushleft\x7d\n" ++ mid
          ++ strLit "\\begin\x7bflushleft\x7d\n"))) := by
  obtain ⟨t, c⟩ := b
  have ht : t = LineType.Header n := hb
  subst ht
  unfold joinedContent
  refine ⟨?_, ?_, ?_, ?_, ?_⟩
  · rintro rfl
    rw [transpile_header1, ← trim_fold_space]
  · rintro rfl
    rw [transpile_header2, ← trim_fold_space]
  · rintro rfl
    rw [transpile_header3, ← trim_fold_space]
  · rintro rfl
    rw [transpile_header5, ← trim_fold_space]
    simp only [List.append_assoc]
    rfl
  · rintro rfl
    constructor
    · rw [transpile_header4, ← trim_fold_space]
      simp [List.append_assoc]
    · refine ⟨strLit "\\center\n" ++ strLit "\\large" ++ strLit "\\textbf\x7b "
        ++ trim (joinSep (strLit " ") c) ++ strLit " \x7d\n" ++ strLit "\\normalsize\n"
        ++ strLit "\\endcenter\n", ?_⟩
      rw [transpile_header4, ← trim_fold_space]
      simp [List.append_assoc]

/-- Witness for C5: a level-1 header block around one line. -/
theorem header_level_dispatch_witness :
    (Block.mk (LineType.Header 1) [strLit "a"]).transpile
      = some (strLit "\\section\x7b "
          ++ joinedContent ⟨LineType.Header 1, [strLit "a"]⟩ ++ strLit " \x7d\n") :=
  (header_level_dispatch ⟨LineType.Header 1, [strLit "a"]⟩ 1 rfl).1 rfl

/-- C6: a Normal block renders by replacing each content line whose trimmed
value is exactly the sentinel with the paragraph-break directive, joining all
lines in order with newline separators (no line dropped), trimming the join
and appending one trailing newline; a block holding only a sentinel line
renders as the directive alone plus that newline. -/
theorem normal_block_rendering (b : Block) (hb : b.block_type = LineType.Normal) :
    b.transpile = some (trim (joinSep (strLit "\n") (b.content.map
        (fun x => if trim x = strLit "~~" then strLit "\\quad\\newline" else x)))
      ++ strLit "\n") ∧
    (∀ y, b.content = [y] → trim y = strLit "~~" →
      b.transpile = some (strLit "\\quad\\newline" ++ strLit "\n")) := by
  obtain ⟨t, c⟩ := b
  have ht : t = LineType.Normal := hb
  subst ht
  have hmain : (Block.mk LineType.Normal c).transpile
      = some (trim (joinSep (strLit "\n") (c.map
          (fun x => if trim x = strLit "~~" then strLit "\\quad\\newline" else x)))
        ++ strLit "\n") := by
    rw [transpile_normal, trim_fold_newline]
  refine ⟨hmain, ?_⟩
  intro y h1 h2
  have hc : c = [y] := h1
  subst hc
  rw [hmain]
  simp only [List.map_cons, List.map_nil, if_pos h2]
  rw [joinSep]
  have : trim (strLit "\\quad\\newline") = strLit "\\quad\\newline" := by decide
  rw [this]

/-- Witness for C6: the sentinel-only Normal block. -/
theorem normal_block_rendering_witness :
    (Block.mk LineType.Normal [strLit "~~"]).transpile
      = some (strLit "\\quad\\newline" ++ strLit "\n") :=
  (normal_block_rendering ⟨LineType.Normal, [strLit "~~"]⟩ rfl).2
    (strLit "~~") rfl (by decide)

/-! ### C4, C3 -/

/-- C4: a sentinel-bearing Align line splits at the first occurrence of the
sentinel: the formula column receives the text before it, trimmed, and the
comment column receives the text after the two sentinel characters verbatim,
untrimmed. -/
theorem align_sentinel_split_first (commented : Bool) (elem p1 p2 : List Char)
    (h : splitAtSentinel elem = some (p1, p2)) :
    elem = p1 ++ '~' :: '~' :: p2 ∧
    (∀ a b : List Char, elem = a ++ '~' :: '~' :: b → p1.length ≤ a.length) ∧
    alignLine commented elem
      = strLit "&" ++ trim p1
        ++ (strLit " &&" ++ (strLit "\\text\x7b " ++ p2 ++ strLit " \x7d"))
        ++ rowTerm := by
  refine ⟨splitAtSentinel_eq elem p1 p2 h,
    fun a b hab => splitAtSentinel_min elem p1 p2 a b h hab, ?_⟩
  unfold alignLine
  rw [h]
  unfold rowTerm
  simp only [List.append_assoc]
  rfl

/-- Witness for C4 at a concrete commented line. -/
theorem align_sentinel_split_first_witness :
    strLit "x=1 ~~first step" = strLit "x=1 " ++ '~' :: '~' :: strLit "first step" ∧
    (∀ a b : List Char, strLit "x=1 ~~first step" = a ++ '~' :: '~' :: b →
      (strLit "x=1 ").length ≤ a.length) ∧
    alignLine true (strLit "x=1 ~~first step")
      = strLit "&" ++ trim (strLit "x=1 ")
        ++ (strLit " &&" ++ (strLit "\\text\x7b " ++ strLit "first step" ++ strLit " \x7d"))
        ++ rowTerm :=
  align_sentinel_split_first true (strLit "x=1 ~~first step")
    (strLit "x=1 ") (strLit "first step") (by decide)

/-- C3: Align rendering makes a block-wide column decision.  `commented` is
true iff some content line contains the sentinel; the fragment is the
alignment environment opened before and closed after the per-line rows in
order; with `commented` false every row has exactly one column, and with
`commented` true every row has exactly two columns, sentinel-free rows
carrying the placeholder spacer in the second column; every row ends with the
row terminator. -/
theorem align_block_column_structure (b : Block) (hb : b.block_type = LineType.Align) :
    (b.content.any containsSentinel = true ↔
      ∃ x ∈ b.content, containsSentinel x = true) ∧
    b.transpile = some (strLit "\\begin\x7balign*\x7d\n"
      ++ (b.content.map (alignLine (b.content.any containsSentinel))).flatten
      ++ strLit "\\end\x7balign*\x7d\n") ∧
    (∀ x ∈ b.content,
      (b.content.any containsSentinel = false →
        alignLine (b.content.any containsSentinel) x = oneColRow x) ∧
      (b.content.any containsSentinel = true →
        ∃ f cm, alignLine (b.content.any containsSentinel) x = twoColRow f cm ∧
          (containsSentinel x = false → cm = quadSpacer))) := by
  obtain ⟨t, c⟩ := b
  have ht : t = LineType.Align := hb
  subst ht
  refine ⟨by simp [List.any_eq_true], transpile_align c, ?_⟩
  intro x hx
  constructor
  · intro hfalse
    have hcx : containsSentinel x = false := by
      rw [List.any_eq_false] at hfalse
      simpa using hfalse x hx
    have hnone : splitAtSentinel x = none := by
      unfold containsSentinel at hcx
      exact Option.not_isSome_iff_eq_none.mp (by simp [hcx])
    unfold alignLine
    rw [hnone, hfalse]
    unfold oneColRow rowTerm
    simp
  · intro htrue
    rw [htrue]
    cases hs : splitAtSentinel x with
    | none =>
        refine ⟨x, quadSpacer, ?_, fun _ => rfl⟩
        unfold alignLine
        rw [hs]
        unfold twoColRow quadSpacer rowTerm
        simp only [List.append_assoc, if_pos]
        rfl
    | some ab =>
        obtain ⟨p1, p2⟩ := ab
        refine ⟨trim p1, strLit "\\text\x7b " ++ p2 ++ strLit " \x7d", ?_, ?_⟩
        · unfold alignLine
          rw [hs]
          unfold twoColRow rowTerm
          simp only [List.append_assoc]
          rfl
        · intro hcf
          unfold containsSentinel at hcf
          rw [hs] at hcf
          simp at hcf

/-- Witness for C3 at a concrete two-line commented block. -/
theorem align_block_column_structure_witness :
    (Block.mk LineType.Align [strLit "x=1~~first step", strLit "y=2"]).transpile
      = some (strLit "\\begin\x7balign*\x7d\n"
        ++ ([strLit "x=1~~first step", strLit "y=2"].map (alignLine
            ([strLit "x=1~~first step", strLit "y=2"].any containsSentinel))).flatten
        ++ strLit "\\end\x7balign*\x7d\n") :=
  (align_block_column_structure
    ⟨LineType.Align, [strLit "x=1~~first step", strLit "y=2"]⟩ rfl).2.1

/-! ### mapM over Option -/

theorem mapM_option_eq_some {α β : Type} (f : α → Option β) :
    ∀ (l : List α) (r : List β),
      l.mapM f = some r ↔ List.Forall₂ (fun a b => f a = some b) l r := by
  intro l
  induction l with
  | nil =>
      intro r
      constructor
      · intro h
        simp only [List.mapM_nil] at h
        cases h
        exact List.Forall₂.nil
      · intro h
        cases h
        rfl
  | cons a l ih =>
      intro r
      constructor
      · intro h
        rw [List.mapM_cons] at h
        cases hfa : f a with
        | none => rw [hfa] at h; simp at h
        | some b =>
            rw [hfa] at h
            cases hml : l.mapM f with
            | none => rw [hml] at h; simp at h
            | some ys =>
                rw [hml] at h
                simp at h
                subst h
                exact List.Forall₂.cons hfa ((ih ys).mp hml)
      · intro h
        cases h with
        | cons hab htl =>
            rw [List.mapM_cons, hab, (ih _).mpr htl]
            rfl

theorem mapM_option_isSome {α β : Type} (f : α → Option β) :
    ∀ l : List α, (∀ a ∈ l, (f a).isSome = true) → (l.mapM f).isSome = true
  | [], _ => rfl
  | a :: l, h => by
      rw [List.mapM_cons]
      cases hfa : f a with
      | none =>
          have := h a (by simp)
          rw [hfa] at this
          simp at this
      | some b =>
          have ih := mapM_option_isSome f l (fun x hx => h x (by simp [hx]))
          cases hml : l.mapM f with
          | none => rw [hml] at ih; simp at ih
          | some ys => simp

/-! ### Reduction lemmas for the segmentation loop -/

theorem segmentGo_nil (acc : List (List Line)) (buf : List Line)
    (cur : Option LineType) : segmentGo acc buf cur [] = (acc, buf) := rfl

theorem segmentGo_cons_same (acc : List (List Line)) (buf : List Line)
    (t : LineType) (l : Line) (rest : List Line) (h : l.getType = t) :
    segmentGo acc buf (some t) (l :: rest)
      = segmentGo acc (buf ++ [l]) (some t) rest := by
  have heq : segmentGo acc buf (some t) (l :: rest)
      = if some l.getType = some t then segmentGo acc (buf ++ [l]) (some t) rest
        else segmentGo (acc ++ [buf]) [l] (some l.getType) rest := rfl
  rw [heq, if_pos (by rw [h])]

theorem segmentGo_cons_diff (acc : List (List Line)) (buf : List Line)
    (t : LineType) (l : Line) (rest : List Line) (h : ¬ l.getType = t) :
    segmentGo acc buf (some t) (l :: rest)
      = segmentGo (acc ++ [buf]) [l] (some l.getType) rest := by
  have heq : segmentGo acc buf (some t) (l :: rest)
      = if some l.getType = some t then segmentGo acc (buf ++ [l]) (some t) rest
        else segmentGo (acc ++ [buf]) [l] (some l.getType) rest := rfl
  rw [heq, if_neg (fun hc => h (Option.some.inj hc))]

theorem segmentGo_none_cons (l : Line) (rest : List Line) :
    segmentGo [] [] none (l :: rest) = segmentGo [] [l] (some l.getType) rest := by
  have heq : segmentGo [] [] none (l :: rest)
      = if some l.getType = none then segmentGo [] [l] none rest
        else segmentGo [] [l] (some l.getType) rest := rfl
  rw [heq, if_neg (by simp)]

theorem bufType_append (buf : List Line) (l : Line) (h : buf ≠ []) :
    bufType (buf ++ [l]) = bufType buf := by
  unfold bufType
  rw [List.head?_append_of_ne_nil _ h]

theorem bufType_eq (buf : List Line) (t : LineType) (hne : buf ≠ [])
    (h : ∀ l ∈ buf, l.getType = t) : bufType buf = some t := by
  cases buf with
  | nil => exact absurd rfl hne
  | cons b bs => simp [bufType, h b (by simp)]

/-- Master invariant of the segmentation loop, for a loop state whose current
buffer is open and homogeneous: the final buffers concatenate back to the
processed lines, every buffer is nonempty and homogeneous, and adjacent
buffers have different kinds. -/
theorem segmentGo_spec :
    ∀ (rest : List Line) (acc : List (List Line)) (buf : List Line) (t : LineType),
      buf ≠ [] →
      (∀ l ∈ buf, l.getType = t) →
      (∀ b ∈ acc, b ≠ []) →
      (∀ b ∈ acc, ∀ x ∈ b, ∀ y ∈ b, x.getType = y.getType) →
      List.Chain' (fun u v => bufType u ≠ bufType v) (acc ++ [buf]) →
      ((segmentGo acc buf (some t) rest).1.flatten ++ (segmentGo acc buf (some t) rest).2
          = acc.flatten ++ (buf ++ rest)) ∧
      (∀ b ∈ (segmentGo acc buf (some t) rest).1 ++ [(segmentGo acc buf (some t) rest).2],
          b ≠ [] ∧ ∀ x ∈ b, ∀ y ∈ b, x.getType = y.getType) ∧
      List.Chain' (fun u v => bufType u ≠ bufType v)
          ((segmentGo acc buf (some t) rest).1 ++ [(segmentGo acc buf (some t) rest).2]) := by
  intro rest
  induction rest with
  | nil =>
      intro acc buf t hne htypes haccne hacchom hchain
      rw [segmentGo_nil]
      refine ⟨by simp, ?_, hchain⟩
      intro b hb
      rw [List.mem_append, List.mem_singleton] at hb
      rcases hb with hb | rfl
      · exact ⟨haccne b hb, hacchom b hb⟩
      · exact ⟨hne, fun x hx y hy => (htypes x hx).trans (htypes y hy).symm⟩
  | cons l rest ih =>
      intro acc buf t hne htypes haccne hacchom hchain
      by_cases hl : l.getType = t
      · rw [segmentGo_cons_same acc buf t l rest hl]
        have hchain2 : List.Chain' (fun u v => bufType u ≠ bufType v)
            (acc ++ [buf ++ [l]]) := by
          rw [List.chain'_append] at hchain ⊢
          refine ⟨hchain.1, List.chain'_singleton _, ?_⟩
          intro x hx y hy
          simp only [List.head?_cons, Option.mem_def, Option.some.injEq] at hy
          subst hy
          rw [bufType_append buf l hne]
          exact hchain.2.2 x hx buf (by simp)
        have htypes2 : ∀ m ∈ buf ++ [l], m.getType = t := by
          intro m hm
          rw [List.mem_append, List.mem_singleton] at hm
          rcases hm with hm | rfl
          · exact htypes m hm
          · exact hl
        have hres := ih acc (buf ++ [l]) t (by simp) htypes2 haccne hacchom hchain2
        refine ⟨?_, hres.2.1, hres.2.2⟩
        rw [hres.1]
        simp [List.append_assoc]
      · rw [segmentGo_cons_diff acc buf t l rest hl]
        have hchain2 : List.Chain' (fun u v => bufType u ≠ bufType v)
            ((acc ++ [buf]) ++ [[l]]) := by
          rw [List.chain'_append]
          refine ⟨hchain, List.chain'_singleton _, ?_⟩
          intro x hx y hy
          simp only [List.head?_cons, Option.mem_def, Option.some.injEq] at hy
          subst hy
          rw [List.getLast?_concat, Option.mem_def, Option.some.injEq] at hx
          subst hx
          rw [bufType_eq buf t hne htypes]
          simp only [bufType, List.head?_cons, Option.map_some']
          intro hcon
          exact hl (Option.some.inj hcon).symm
        have hres := ih (acc ++ [buf]) [l] l.getType (by simp)
          (by intro m hm
              rw [List.mem_singleton] at hm
              subst hm
              rfl)
          (by intro b hb
              rw [List.mem_append, List.mem_singleton] at hb
              rcases hb with hb | rfl
              · exact haccne b hb
              · exact hne)
          (by intro b hb
              rw [List.mem_append, List.mem_singleton] at hb
              rcases hb with hb | rfl
              · exact hacchom b hb
              · exact fun x hx y hy => (htypes x hx).trans (htypes y hy).symm)
          hchain2
        refine ⟨?_, hres.2.1, hres.2.2⟩
        rw [hres.1]
        simp [List.append_assoc]

/-- Blocks built from buffers carry exactly the buffers' marker-stripped
contents, in order. -/
theorem forall2_blocks_content :
    ∀ (bufs : List (List Line)) (blocks : List Block),
      List.Forall₂ (fun buf blk => Block.from_block_buffer buf = some blk) bufs blocks →
      (blocks.map Block.content).flatten = bufs.flatten.map Line.getContent := by
  intro bufs blocks h
  induction h with
  | nil => simp
  | @cons a b l1 l2 hab _ ih =>
      simp only [List.map_cons, List.flatten_cons, List.map_append]
      rw [ih]
      cases a with
      | nil => simp [Block.from_block_buffer] at hab
      | cons x xs =>
          simp only [Block.from_block_buffer, Option.some.injEq] at hab
          rw [← hab]

/-- C1: segmentation is a stable partition of the classified line sequence:
the blocks arise, in order, from a buffer partition that concatenates back to
the classified lines; every buffer is nonempty and all its lines share one
LineKind (so adjacent lines in a block have equal kinds); adjacent buffers
have unequal kinds; and the concatenation of the blocks' contents reproduces
the marker-stripped contents of the original lines in input order. -/
theorem segmentation_stable_partition (s : List Char) (f : PreFile)
    (hf : PreFile.from_string s = some f) :
    ∃ bufs : List (List Line),
      bufs.flatten = (rustLines s).map classify ∧
      List.Forall₂ (fun buf blk => Block.from_block_buffer buf = some blk)
        bufs f.blocks ∧
      (∀ buf ∈ bufs, buf ≠ [] ∧ ∀ x ∈ buf, ∀ y ∈ buf, x.getType = y.getType) ∧
      List.Chain' (fun u v => bufType u ≠ bufType v) bufs ∧
      (f.blocks.map Block.content).flatten
        = ((rustLines s).map classify).map Line.getContent := by
  cases hls : (rustLines s).map classify with
  | nil =>
      exfalso
      have hnone : PreFile.from_string s = none := by
        simp only [PreFile.from_string]
        rw [hls]
        rfl
      rw [hnone] at hf
      exact Option.noConfusion hf
  | cons l rest =>
      simp only [PreFile.from_string] at hf
      rw [hls, segmentGo_none_cons] at hf
      have hspec := segmentGo_spec rest [] [l] l.getType (by simp)
        (by intro m hm
            rw [List.mem_singleton] at hm
            subst hm
            rfl)
        (by intro b hb; simp at hb)
        (by intro b hb; simp at hb)
        (by simp)
      obtain ⟨hflat, hprops, hchain⟩ := hspec
      have hbufs : ((segmentGo [] [l] (some l.getType) rest).1
          ++ [(segmentGo [] [l] (some l.getType) rest).2]).flatten = l :: rest := by
        rw [List.flatten_append]
        simp only [List.flatten_cons, List.flatten_nil, List.append_nil]
        rw [hflat]
        simp
      cases hm : ((segmentGo [] [l] (some l.getType) rest).1
          ++ [(segmentGo [] [l] (some l.getType) rest).2]).mapM Block.from_block_buffer with
      | none => rw [hm] at hf; simp at hf
      | some blocks =>
          rw [hm] at hf
          simp only [Option.some.injEq] at hf
          have hfb : f.blocks = blocks := by rw [← hf]
          have hforall := (mapM_option_eq_some Block.from_block_buffer _ blocks).mp hm
          refine ⟨(segmentGo [] [l] (some l.getType) rest).1
            ++ [(segmentGo [] [l] (some l.getType) rest).2], hbufs, ?_, hprops, hchain, ?_⟩
          · rw [hfb]
            exact hforall
          · rw [hfb, forall2_blocks_content _ blocks hforall, hbufs]

/-- Witness for C1 on the one-line document "a". -/
theorem segmentation_stable_partition_witness :
    ∃ bufs : List (List Line),
      bufs.flatten = (rustLines (strLit "a")).map classify ∧
      List.Forall₂ (fun buf blk => Block.from_block_buffer buf = some blk)
        bufs (PreFile.mk [Block.mk LineType.Normal [strLit "a"]]).blocks ∧
      (∀ buf ∈ bufs, buf ≠ [] ∧ ∀ x ∈ buf, ∀ y ∈ buf, x.getType = y.getType) ∧
      List.Chain' (fun u v => bufType u ≠ bufType v) bufs ∧
      ((PreFile.mk [Block.mk LineType.Normal [strLit "a"]]).blocks.map
          Block.content).flatten
        = ((rustLines (strLit "a")).map classify).map Line.getContent :=
  segmentation_stable_partition (strLit "a")
    ⟨[Block.mk LineType.Normal [strLit "a"]]⟩ (by decide)

/-! ### Nonemptiness of the line split -/

theorem splitOnNewline_ne_nil (s : List Char) : splitOnNewline s ≠ [] := by
  cases s with
  | nil => simp [splitOnNewline]
  | cons c rest =>
      rw [splitOnNewline]
      by_cases h : c = '\n'
      · rw [if_pos h]; simp
      · rw [if_neg h]
        cases hs : splitOnNewline rest with
        | nil => simp
        | cons seg segs => simp

theorem splitOnNewline_eq_singleton_nil :
    ∀ s : List Char, splitOnNewline s = [[]] → s = []
  | [], _ => rfl
  | c :: rest, h => by
      rw [splitOnNewline] at h
      by_cases hc : c = '\n'
      · rw [if_pos hc] at h
        simp only [List.cons.injEq] at h
        exact absurd h.2 (splitOnNewline_ne_nil rest)
      · rw [if_neg hc] at h
        cases hs : splitOnNewline rest with
        | nil => exact absurd hs (splitOnNewline_ne_nil rest)
        | cons seg segs =>
            rw [hs] at h
            simp at h

theorem rustLinesAux_ne_nil :
    ∀ segs : List (List Char), segs ≠ [] → segs ≠ [[]] → rustLinesAux segs ≠ []
  | [], h, _ => absurd rfl h
  | [last], _, h2 => by
      rw [rustLinesAux]
      have hl : last ≠ [] := fun hl => h2 (by rw [hl])
      rw [if_neg hl]
      simp
  | seg :: seg2 :: rest, _, _ => by
      rw [rustLinesAux]
      simp

theorem rustLines_ne_nil (s : List Char) (hs : s ≠ []) : rustLines s ≠ [] := by
  simp only [rustLines]
  rw [if_neg hs]
  refine rustLinesAux_ne_nil _ (splitOnNewline_ne_nil s) ?_
  intro hcon
  exact hs (splitOnNewline_eq_singleton_nil s hcon)

/-! ### C8, C9 -/

/-- C8: building a block from an empty buffer is fatal; the wholly empty
document hits exactly this condition when the final buffer is closed after the
loop, while every non-empty document runs the pipeline front end without ever
reaching it. -/
theorem empty_buffer_fatal :
    Block.from_block_buffer [] = none ∧
    PreFile.from_string [] = none ∧
    (∀ s : List Char, s ≠ [] → (PreFile.from_string s).isSome = true) := by
  refine ⟨rfl, rfl, ?_⟩
  intro s hs
  simp only [PreFile.from_string]
  cases hls : (rustLines s).map classify with
  | nil =>
      exact absurd (List.map_eq_nil_iff.mp hls) (rustLines_ne_nil s hs)
  | cons l rest =>
      rw [segmentGo_none_cons]
      have hspec := segmentGo_spec rest [] [l] l.getType (by simp)
        (by intro m hm
            rw [List.mem_singleton] at hm
            subst hm
            rfl)
        (by intro b hb; simp at hb)
        (by intro b hb; simp at hb)
        (by simp)
      obtain ⟨-, hprops, -⟩ := hspec
      have hm : (((segmentGo [] [l] (some l.getType) rest).1
          ++ [(segmentGo [] [l] (some l.getType) rest).2]).mapM
            Block.from_block_buffer).isSome = true := by
        apply mapM_option_isSome
        intro a ha
        have hane := (hprops a ha).1
        cases a with
        | nil => exact absurd rfl hane
        | cons x xs => simp [Block.from_block_buffer]
      cases hmm : ((segmentGo [] [l] (some l.getType) rest).1
          ++ [(segmentGo [] [l] (some l.getType) rest).2]).mapM
            Block.from_block_buffer with
      | none => rw [hmm] at hm; simp at hm
      | some blocks => simp

/-- Witness for C8: the one-character document is fully segmented. -/
theorem empty_buffer_fatal_witness :
    (PreFile.from_string (strLit "a")).isSome = true :=
  empty_buffer_fatal.2.2 (strLit "a") (by decide)

/-- C9: the assembled output is exactly the static header, then the blocks'
rendered fragments in block order with nothing interposed, then the static
footer; hence it begins with the header and ends with the footer. -/
theorem assembler_concat (f : PreFile) (out : List Char)
    (h : f.transpile = some out) :
    ∃ frags : List (List Char),
      List.Forall₂ (fun blk fr => Block.transpile blk = some fr) f.blocks frags ∧
      out = DEFAULT_HEADER ++ frags.flatten ++ DEFAULT_FOOTER ∧
      (∃ t1, out = DEFAULT_HEADER ++ t1) ∧
      (∃ t2, out = t2 ++ DEFAULT_FOOTER) := by
  unfold PreFile.transpile at h
  cases hm : f.blocks.mapM Block.transpile with
  | none => rw [hm] at h; exact Option.noConfusion h
  | some frags =>
      rw [hm] at h
      simp only [Option.some.injEq] at h
      subst h
      exact ⟨frags, (mapM_option_eq_some Block.transpile f.blocks frags).mp hm, rfl,
        ⟨frags.flatten ++ DEFAULT_FOOTER, by simp [List.append_assoc]⟩,
        ⟨DEFAULT_HEADER ++ frags.flatten, rfl⟩⟩

/-- Witness for C9 on the empty block list. -/
theorem assembler_concat_witness :
    ∃ frags : List (List Char),
      List.Forall₂ (fun blk fr => Block.transpile blk = some fr)
        (PreFile.mk []).blocks frags ∧
      DEFAULT_HEADER ++ (List.flatten ([] : List (List Char))) ++ DEFAULT_FOOTER
        = DEFAULT_HEADER ++ frags.flatten ++ DEFAULT_FOOTER ∧
      (∃ t1, DEFAULT_HEADER ++ (List.flatten ([] : List (List Char)))
          ++ DEFAULT_FOOTER = DEFAULT_HEADER ++ t1) ∧
      (∃ t2, DEFAULT_HEADER ++ (List.flatten ([] : List (List Char)))
          ++ DEFAULT_FOOTER = t2 ++ DEFAULT_FOOTER) :=
  assembler_concat (PreFile.mk [])
    (DEFAULT_HEADER ++ (List.flatten ([] : List (List Char))) ++ DEFAULT_FOOTER) rfl

/-! ### Trailing-newline behaviour of the line split -/

theorem splitOnNewline_append_newline : ∀ s : List Char,
    splitOnNewline (s ++ ['\n']) = splitOnNewline s ++ [[]]
  | [] => by simp [splitOnNewline]
  | c :: rest => by
      rw [List.cons_append, splitOnNewline, splitOnNewline]
      by_cases h : c = '\n'
      · rw [if_pos h, if_pos h, splitOnNewline_append_newline rest]
        simp
      · rw [if_neg h, if_neg h, splitOnNewline_append_newline rest]
        cases hs : splitOnNewline rest with
        | nil => exact absurd hs (splitOnNewline_ne_nil rest)
        | cons seg segs => simp

theorem splitOnNewline_getLast_nil : ∀ s : List Char,
    (splitOnNewline s).getLast? = some [] → s = [] ∨ s.getLast? = some '\n'
  | [], _ => Or.inl rfl
  | c :: rest, h => by
      rw [splitOnNewline] at h
      by_cases hc : c = '\n'
      · subst hc
        rw [if_pos rfl] at h
        cases hr : rest with
        | nil => right; rfl
        | cons d ds =>
            obtain ⟨seg, segs, hsp⟩ :=
              List.exists_cons_of_ne_nil (splitOnNewline_ne_nil rest)
            rw [hsp, List.getLast?_cons_cons] at h
            have ih := splitOnNewline_getLast_nil rest (by rw [hsp]; exact h)
            rcases ih with h1 | h1
            · rw [hr] at h1
              exact absurd h1 (by simp)
            · right
              rw [hr] at h1
              rw [List.getLast?_cons_cons]
              exact h1
      · rw [if_neg hc] at h
        cases hs : splitOnNewline rest with
        | nil => exact absurd hs (splitOnNewline_ne_nil rest)
        | cons seg segs =>
            rw [hs] at h
            cases segs with
            | nil => simp at h
            | cons s2 ss =>
                rw [List.getLast?_cons_cons] at h
                have hrne : rest ≠ [] := by
                  intro hr
                  subst hr
                  simp [splitOnNewline] at hs
                have ih := splitOnNewline_getLast_nil rest
                  (by rw [hs, List.getLast?_cons_cons]; exact h)
                rcases ih with h1 | h1
                · exact absurd h1 hrne
                · right
                  obtain ⟨d, ds, rfl⟩ := List.exists_cons_of_ne_nil hrne
                  rw [List.getLast?_cons_cons]
                  exact h1

theorem splitOnNewline_last_last :
    ∀ (s L : List Char) (c : Char),
      (splitOnNewline s).getLast? = some L → L.getLast? = some c →
      s.getLast? = some c
  | [], L, c, h1, h2 => by
      simp only [splitOnNewline, List.getLast?_singleton, Option.some.injEq] at h1
      subst h1
      simp at h2
  | c0 :: rest, L, c, h1, h2 => by
      rw [splitOnNewline] at h1
      by_cases hc : c0 = '\n'
      · rw [if_pos hc] at h1
        obtain ⟨sg, sgs, hsp⟩ :=
          List.exists_cons_of_ne_nil (splitOnNewline_ne_nil rest)
        rw [hsp, List.getLast?_cons_cons] at h1
        have ih := splitOnNewline_last_last rest L c (by rw [hsp]; exact h1) h2
        have hrne : rest ≠ [] := by
          intro hr
          rw [hr] at ih
          simp at ih
        obtain ⟨d, ds, rfl⟩ := List.exists_cons_of_ne_nil hrne
        rw [List.getLast?_cons_cons]
        exact ih
      · rw [if_neg hc] at h1
        cases hs : splitOnNewline rest with
        | nil => exact absurd hs (splitOnNewline_ne_nil rest)
        | cons sg sgs =>
            rw [hs] at h1
            cases sgs with
            | nil =>
                simp only [List.getLast?_singleton, Option.some.injEq] at h1
                subst h1
                cases hsg : sg with
                | nil =>
                    have hrest : rest = [] :=
                      splitOnNewline_eq_singleton_nil rest (by rw [hs, hsg])
                    subst hrest
                    rw [hsg] at h2
                    simp only [List.getLast?_singleton, Option.some.injEq] at h2
                    subst h2
                    simp
                | cons e es =>
                    rw [hsg, List.getLast?_cons_cons] at h2
                    have ih := splitOnNewline_last_last rest sg c
                      (by rw [hs]; simp)
                      (by rw [hsg]; exact h2)
                    have hrne : rest ≠ [] := by
                      intro hr
                      rw [hr] at ih
                      simp at ih
                    obtain ⟨d, ds, rfl⟩ := List.exists_cons_of_ne_nil hrne
                    rw [List.getLast?_cons_cons]
                    exact ih
            | cons s2 ss =>
                rw [List.getLast?_cons_cons] at h1
                have ih := splitOnNewline_last_last rest L c
                  (by rw [hs, List.getLast?_cons_cons]; exact h1) h2
                have hrne : rest ≠ [] := by
                  intro hr
                  rw [hr] at ih
                  simp at ih
                obtain ⟨d, ds, rfl⟩ := List.exists_cons_of_ne_nil hrne
                rw [List.getLast?_cons_cons]
                exact ih

theorem rustLinesAux_append_nil :
    ∀ segs : List (List Char), segs ≠ [] →
      rustLinesAux (segs ++ [[]]) = segs.map stripCR
  | [], h => absurd rfl h
  | [x], _ => by
      rw [List.cons_append, List.nil_append, rustLinesAux, rustLinesAux]
      simp
  | x :: y :: rest, _ => by
      have ih := rustLinesAux_append_nil (y :: rest) (by simp)
      simp only [List.cons_append] at ih ⊢
      rw [rustLinesAux, ih]
      simp

theorem rustLinesAux_keep :
    ∀ segs : List (List Char),
      (∀ L, segs.getLast? = some L → L ≠ [] ∧ L.getLast? ≠ some '\r') →
      rustLinesAux segs = segs.map stripCR
  | [], _ => rfl
  | [x], h => by
      have hx := h x (by simp)
      rw [rustLinesAux, if_neg hx.1]
      simp only [List.map_cons, List.map_nil]
      unfold stripCR
      rw [if_neg hx.2]
  | x :: y :: rest, h => by
      have ih := rustLinesAux_keep (y :: rest)
        (fun L hL => h L (by rw [List.getLast?_cons_cons]; exact hL))
      rw [rustLinesAux, ih]
      simp

theorem rustLines_append_newline (s : List Char) (h1 : s ≠ [])
    (h2 : s.getLast? ≠ some '\n') (h3 : s.getLast? ≠ some '\r') :
    rustLines (s ++ ['\n']) = rustLines s := by
  have hne : s ++ ['\n'] ≠ [] := by simp
  simp only [rustLines]
  rw [if_neg hne, if_neg h1, splitOnNewline_append_newline]
  rw [rustLinesAux_append_nil _ (splitOnNewline_ne_nil s)]
  refine (rustLinesAux_keep _ ?_).symm
  intro L hL
  constructor
  · intro hLnil
    subst hLnil
    rcases splitOnNewline_getLast_nil s hL with h | h
    · exact h1 h
    · exact h2 h
  · intro hcr
    exact h3 (splitOnNewline_last_last s L '\r' hL hcr)

/-! ### C10 -/

set_option maxRecDepth 8192 in
/-- C10 counterexample: ">x\r" is non-empty and does not end with a newline,
yet appending one newline changes the pipeline output: the bare carriage
return survives `str::lines` only on the unterminated final line, so the two
runs classify different align contents ("x\r" versus "x"). -/
theorem trailing_newline_counterexample :
    strLit ">x\r" ≠ [] ∧ (strLit ">x\r").getLast? ≠ some '\n' ∧
    run (strLit ">x\r" ++ ['\n']) ≠ run (strLit ">x\r") := by decide

/-- C10 (amended): the pipeline is insensitive to one trailing newline for
every non-empty input that ends neither with a newline nor with a carriage
return: appending one newline leaves the line split, and therefore the whole
pipeline output, unchanged. -/
theorem trailing_newline_insensitive (s : List Char) (h1 : s ≠ [])
    (h2 : s.getLast? ≠ some '\n') (h3 : s.getLast? ≠ some '\r') :
    rustLines (s ++ ['\n']) = rustLines s ∧ run (s ++ ['\n']) = run s := by
  have hrl := rustLines_append_newline s h1 h2 h3
  refine ⟨hrl, ?_⟩
  have hfs : PreFile.from_string (s ++ ['\n']) = PreFile.from_string s := by
    unfold PreFile.from_string
    rw [hrl]
  unfold run
  rw [hfs]

/-- Witness for the amended C10 on the document "a". -/
theorem trailing_newline_insensitive_witness :
    rustLines (strLit "a" ++ ['\n']) = rustLines (strLit "a") ∧
    run (strLit "a" ++ ['\n']) = run (strLit "a") :=
  trailing_newline_insensitive (strLit "a") (by decide) (by decide) (by decide)
